import Mathlib

/-!
Shallow embedding of the `LinkedList` data structure of this repository.

The Rust type is a sentinel head node: the `LinkedList` struct itself
carries `value = None` and a `next : Option<NonNull<LinkedList>>` raw
pointer to the first value-carrying node.  Every node reachable from the
sentinel's `next` pointer is a heap allocation holding `value = Some(Box v)`
(every allocation site — `push_front`, `push_back`, `add_at` — stores
`Some`) and an optional pointer to its successor.  Since the chain is a
simple finite path (no operation ever creates sharing or a cycle: each
splice moves one `next` pointer to a freshly allocated node or to the
removed node's successor), the whole observable state of a list is the
sequence of stored values.  We embed that state as `List α` — `[]` stands
for `next = None`, `v :: rest` for a pointer to a node holding `v` whose
own `next` encodes `rest`.

Fallible operations (`remove`, `add_at`) return, next to the post-state,
their `Result<(), ()>` as `Except Unit Unit`, and the number of chain
nodes they allocated (via `Box::new`) or freed (via
`drop(Box::from_raw(..))`), so that "no node is allocated" / "nothing is
removed" claims are statable.  In the Rust source every `Err` return
happens before any write to the structure and before any allocation, so
the error branches of the embedding return the input state unchanged with
an allocation/free count of 0 — that correspondence is checked branch by
branch against the source.

`LL` embeds `src/data_structure/linked_list.rs` (the version compiled by
`main.rs`); `Draft` embeds the leftover draft `src/linked_list/linked_list.rs`.
-/

namespace LL

variable {α : Type}

/-- `get_node_at(idx)`: starting from `cur_node = &self.next`, the loop
`while cur_idx < idx && cur_node.is_some()` follows `next` pointers and
returns the final `cur_node`.  A node pointer is rendered as the suffix of
the chain hanging from it; `None` is `[]`.  With `idx = 0` the loop does
not run; otherwise one step consumes one chain node, and the loop exits
early with `None` once the chain is exhausted. -/
def get_node_at : List α → Nat → List α
  | l, 0 => l
  | [], _ + 1 => []
  | _ :: rest, idx + 1 => get_node_at rest idx

/-- `get(idx)`: calls `get_node_at(idx)` and, on `Some(node)`, reads
`node.value.as_deref()`.  Every chain node stores `Some` value, so a found
node always yields its value. -/
def get (l : List α) (idx : Nat) : Option α :=
  match get_node_at l idx with
  | [] => none
  | x :: _ => some x

/-- `push_front(value)`: allocates one node.  If `self.next` is `None` the
new node (with `next = None`) becomes the head; otherwise the new node's
`next` is pointed at the current head and the head pointer is moved to the
new node.  Both branches prepend the value. -/
def push_front (l : List α) (v : α) : List α :=
  match l with
  | [] => [v]
  | _ :: _ => v :: l

/-- `push_back(value)`: if the list is empty, behaves like the empty-list
branch of `push_front`; otherwise walks `cur_node_ptr` to the last node
(`while (*cur_node_ptr).next.is_some()`) and attaches a fresh node there.
The walk is the structural recursion. -/
def push_back : List α → α → List α
  | [], v => [v]
  | x :: rest, v => x :: push_back rest v

/-- The splice of `add_at` for `idx > 0`: `get_node_at(idx - 1)` walks to
the predecessor node (`none` when the walk saturates and the predecessor
is absent), then a fresh node holding `v` is linked between the
predecessor and the predecessor's current successor.  The walk and the
in-place pointer write are rendered as one recursion over the chain:
`c :: rest, 0` is the predecessor `c` getting `v` spliced in front of its
old successor chain `rest`. -/
def insert_after : List α → Nat → α → Option (List α)
  | [], _, _ => none
  | c :: rest, 0, v => some (c :: v :: rest)
  | c :: rest, k + 1, v => (insert_after rest k v).map fun r => c :: r

/-- `add_at(value, idx)`: `idx == 0` delegates to `push_front` (one
allocation, `Ok`); otherwise the predecessor at `idx - 1` is located and
a node is spliced after it, or `Err(())` is returned with nothing
allocated and nothing written. -/
def add_at (l : List α) (v : α) (idx : Nat) : List α × Except Unit Unit × Nat :=
  if idx = 0 then
    (push_front l v, Except.ok (), 1)
  else
    match insert_after l (idx - 1) v with
    | none => (l, Except.error (), 0)
    | some r => (r, Except.ok (), 1)

/-- The traversal-and-splice of `remove` for `idx > 0`: `cur_node` starts
at the first node and the loop `while cur_idx < idx - 1` advances it,
returning `Err` if a `next` is missing; afterwards `node_to_remove =
(*cur_node).next` must exist or `Err` is returned; finally the
predecessor's `next` is pointed at the removed node's `next`, the removed
node's `next` is cleared, and the node is freed.  `k` counts the remaining
loop iterations (`idx - 1` at the start). -/
def splice_at : List α → Nat → Option (List α)
  | [], _ => none
  | [_], 0 => none
  | c :: _ :: rest, 0 => some (c :: rest)
  | c :: rest, k + 1 => (splice_at rest k).map fun r => c :: r

/-- `remove(idx)`: for `idx == 0`, the head node is required (`Err` on the
empty list), the head pointer is advanced to its `next`, the node's `next`
is cleared and the node is freed.  For `idx > 0`, the empty list is `Err`,
otherwise the loop-and-splice of `splice_at` runs from the first node with
`idx - 1` remaining steps.  Every `Err` path returns before any pointer
write, so the state is unchanged and no node is freed. -/
def remove (l : List α) (idx : Nat) : List α × Except Unit Unit × Nat :=
  if idx = 0 then
    match l with
    | [] => (l, Except.error (), 0)
    | _ :: rest => (rest, Except.ok (), 1)
  else
    match l with
    | [] => (l, Except.error (), 0)
    | _ :: _ =>
      match splice_at l (idx - 1) with
      | none => (l, Except.error (), 0)
      | some r => (r, Except.ok (), 1)

/-- `Drop::drop`: a node's handler checks `self.next`; when it is `Some`,
`drop(Box::from_raw(next_node_ptr))` runs the successor's own `Drop`
handler to completion (recursing down the whole chain) and only then
frees the successor's storage.  So for the chain below a node, the frees
complete successor-chain first, then the node itself, and every handler
in flight occupies a stack frame.  `drop_chain l` returns the order in
which the frees of the nodes of `l` complete, paired with the maximal
nesting depth of `drop` calls reached while releasing `l`. -/
def drop_chain : List α → List α × Nat
  | [] => ([], 0)
  | x :: rest =>
    let r := drop_chain rest
    (r.1 ++ [x], r.2 + 1)

/-- `vs.foldl push_back l`: the state after `push_back`-ing each value of
`vs`, in order, onto the list state `l`. -/
def push_back_all (l : List α) (vs : List α) : List α :=
  vs.foldl push_back l

end LL

namespace Draft

variable {α : Type}

/-- `get(idx)` of the draft: the same saturating walk as the final
version's `get_node_at`, inlined, followed by reading the found node's
value. -/
def get : List α → Nat → Option α
  | [], _ => none
  | x :: _, 0 => some x
  | _ :: rest, idx + 1 => get rest idx

/-- `push_at(value, idx)` of the draft: the body is just `Ok(())` — the
borrowed list is never touched and no node is allocated. -/
def push_at (l : List α) (v : α) (idx : Nat) : List α × Except Unit Unit :=
  (l, Except.ok ())

/-- `Drop::drop` of the draft: the body is `todo!()`, which panics
unconditionally for every list state.  The panic is embedded as a
constant `Except.error`. -/
def drop_run : List α → Except Unit Unit :=
  fun _ => Except.error ()

end Draft

/-!
Characterizations of the embedded operations.  These link each operation
to the standard list combinators (`drop`, `getElem?`, `insertIdx`,
`eraseIdx`) it implements.
-/

namespace LL

variable {α : Type}

theorem get_node_at_eq_drop (l : List α) (idx : Nat) :
    get_node_at l idx = l.drop idx := by
  induction l generalizing idx with
  | nil => cases idx <;> simp [get_node_at]
  | cons x rest ih => cases idx <;> simp [get_node_at, ih]

theorem get_eq_getElem? (l : List α) (idx : Nat) : get l idx = l[idx]? := by
  induction l generalizing idx with
  | nil => cases idx <;> rfl
  | cons x rest ih =>
    cases idx with
    | zero => simp [get, get_node_at]
    | succ n => simpa [get, get_node_at] using ih n

theorem push_front_eq (l : List α) (v : α) : push_front l v = v :: l := by
  cases l <;> rfl

theorem push_back_eq (l : List α) (v : α) : push_back l v = l ++ [v] := by
  induction l with
  | nil => rfl
  | cons x rest ih => simp [push_back, ih]

theorem push_back_all_eq (l vs : List α) : push_back_all l vs = l ++ vs := by
  induction vs generalizing l with
  | nil => simp [push_back_all]
  | cons v vs ih =>
    show push_back_all (push_back l v) vs = l ++ v :: vs
    rw [ih (push_back l v), push_back_eq]
    simp

theorem insert_after_eq (l : List α) (k : Nat) (v : α) :
    insert_after l k v =
      if k < l.length then some (l.insertIdx (k + 1) v) else none := by
  induction l generalizing k with
  | nil => simp [insert_after]
  | cons c rest ih =>
    cases k with
    | zero => simp [insert_after, List.insertIdx_succ_cons, List.insertIdx_zero]
    | succ n =>
      simp only [insert_after, ih]
      by_cases h : n < rest.length
      · simp [h, Nat.succ_lt_succ_iff, List.insertIdx_succ_cons]
      · simp [h, Nat.succ_lt_succ_iff]

theorem splice_at_eq (l : List α) (k : Nat) :
    splice_at l k =
      if k + 1 < l.length then some (l.eraseIdx (k + 1)) else none := by
  induction l generalizing k with
  | nil => simp [splice_at]
  | cons c rest ih =>
    cases k with
    | zero =>
      cases rest with
      | nil => simp [splice_at]
      | cons t rest2 =>
        simp [splice_at, List.eraseIdx_cons_succ, List.eraseIdx_cons_zero]
    | succ n =>
      simp only [splice_at, ih]
      by_cases h : n + 1 < rest.length
      · simp [h, Nat.succ_lt_succ_iff, List.eraseIdx_cons_succ]
      · simp [h, Nat.succ_lt_succ_iff]

theorem getElem?_insertIdx_of_lt (l : List α) (v : α) (n k : Nat) (h : k < n) :
    (l.insertIdx n v)[k]? = l[k]? := by
  induction n generalizing l k with
  | zero => exact absurd h (Nat.not_lt_zero k)
  | succ n ih =>
    cases l with
    | nil => simp [List.insertIdx_succ_nil]
    | cons x xs =>
      cases k with
      | zero => simp [List.insertIdx_succ_cons]
      | succ m => simpa [List.insertIdx_succ_cons] using ih xs m (by omega)

theorem getElem?_insertIdx_self (l : List α) (v : α) (n : Nat)
    (h : n ≤ l.length) : (l.insertIdx n v)[n]? = some v := by
  induction n generalizing l with
  | zero => simp [List.insertIdx_zero]
  | succ n ih =>
    cases l with
    | nil => simp at h
    | cons x xs =>
      simpa [List.insertIdx_succ_cons] using ih xs (by simpa using h)

theorem getElem?_insertIdx_shift (l : List α) (v : α) (n k : Nat)
    (hn : n ≤ l.length) (hk : n ≤ k) :
    (l.insertIdx n v)[k + 1]? = l[k]? := by
  induction n generalizing l k with
  | zero => simp [List.insertIdx_zero]
  | succ n ih =>
    cases l with
    | nil => simp at hn
    | cons x xs =>
      cases k with
      | zero => exact absurd hk (by omega)
      | succ m =>
        simpa [List.insertIdx_succ_cons] using
          ih xs m (by simpa using hn) (by omega)

theorem getElem?_eraseIdx_of_lt (l : List α) (n k : Nat) (h : k < n) :
    (l.eraseIdx n)[k]? = l[k]? := by
  induction n generalizing l k with
  | zero => exact absurd h (Nat.not_lt_zero k)
  | succ n ih =>
    cases l with
    | nil => simp
    | cons x xs =>
      cases k with
      | zero => simp [List.eraseIdx_cons_succ]
      | succ m => simpa [List.eraseIdx_cons_succ] using ih xs m (by omega)

theorem getElem?_eraseIdx_of_ge (l : List α) (n k : Nat) (h : n ≤ k) :
    (l.eraseIdx n)[k]? = l[k + 1]? := by
  induction n generalizing l k with
  | zero =>
    cases l with
    | nil => simp
    | cons x xs => simp [List.eraseIdx_cons_zero]
  | succ n ih =>
    cases l with
    | nil => simp
    | cons x xs =>
      cases k with
      | zero => exact absurd h (by omega)
      | succ m => simpa [List.eraseIdx_cons_succ] using ih xs m (by omega)

theorem add_at_of_le (l : List α) (v : α) (idx : Nat) (h : idx ≤ l.length) :
    add_at l v idx = (l.insertIdx idx v, Except.ok (), 1) := by
  by_cases h0 : idx = 0
  · subst h0
    simp [add_at, push_front_eq, List.insertIdx_zero]
  · obtain ⟨k, rfl⟩ : ∃ k, idx = k + 1 := ⟨idx - 1, by omega⟩
    simp [add_at, insert_after_eq, Nat.lt_of_succ_le h]

theorem add_at_of_gt (l : List α) (v : α) (idx : Nat) (h : l.length < idx) :
    add_at l v idx = (l, Except.error (), 0) := by
  obtain ⟨k, rfl⟩ : ∃ k, idx = k + 1 := ⟨idx - 1, by omega⟩
  simp [add_at, insert_after_eq, Nat.not_lt.mpr (Nat.le_of_lt_succ h)]

theorem remove_of_lt (l : List α) (idx : Nat) (h : idx < l.length) :
    remove l idx = (l.eraseIdx idx, Except.ok (), 1) := by
  by_cases h0 : idx = 0
  · subst h0
    cases l with
    | nil => simp at h
    | cons x xs => simp [remove, List.eraseIdx_cons_zero]
  · obtain ⟨k, rfl⟩ : ∃ k, idx = k + 1 := ⟨idx - 1, by omega⟩
    cases l with
    | nil => simp at h
    | cons x xs =>
      have h2 : k < xs.length := by
        simpa [Nat.succ_lt_succ_iff] using h
      simp [remove, splice_at_eq, h2]

theorem remove_of_ge (l : List α) (idx : Nat) (h : l.length ≤ idx) :
    remove l idx = (l, Except.error (), 0) := by
  by_cases h0 : idx = 0
  · subst h0
    cases l with
    | nil => simp [remove]
    | cons x xs => simp at h
  · obtain ⟨k, rfl⟩ : ∃ k, idx = k + 1 := ⟨idx - 1, by omega⟩
    cases l with
    | nil => simp [remove]
    | cons x xs =>
      have h2 : ¬k < xs.length := by
        simp only [List.length_cons] at h
        omega
      simp [remove, splice_at_eq, h2]

theorem drop_chain_eq (l : List α) : drop_chain l = (l.reverse, l.length) := by
  induction l with
  | nil => rfl
  | cons x rest ih => simp [drop_chain, ih]

end LL

/-!
The claimed properties.
-/

/-- C1: `get(idx)` returns the value stored at position `idx` exactly when
`0 ≤ idx < count` (the number of reachable nodes), and returns absent
(`none`) otherwise — in particular on the empty list and for `idx` far
larger than `count`: `get` agrees with `getElem?` on the value sequence. -/
theorem get_some_iff_in_range {α : Type} (l : List α) (idx : Nat) :
    ((LL.get l idx).isSome ↔ idx < l.length) ∧ LL.get l idx = l[idx]? := by
  refine ⟨?_, LL.get_eq_getElem? l idx⟩
  rw [LL.get_eq_getElem?]
  constructor
  · intro hs
    by_contra hc
    rw [List.getElem?_eq_none (Nat.le_of_not_lt hc)] at hs
    simp at hs
  · intro h
    rw [List.getElem?_eq_getElem h]
    rfl

/-- C2: for every `idx < count`, `remove(idx)` succeeds; afterwards the
count has decreased by exactly 1, every element previously at a position
greater than `idx` sits at its previous position minus 1, and every
element at a position less than `idx` is unchanged. -/
theorem remove_in_range_shifts {α : Type} (l : List α) (idx : Nat)
    (h : idx < l.length) :
    (LL.remove l idx).2.1 = Except.ok () ∧
    (LL.remove l idx).1.length + 1 = l.length ∧
    (∀ k, k < idx → LL.get (LL.remove l idx).1 k = LL.get l k) ∧
    (∀ k, idx ≤ k → LL.get (LL.remove l idx).1 k = LL.get l (k + 1)) := by
  rw [LL.remove_of_lt l idx h]
  dsimp only
  refine ⟨rfl, ?_, ?_, ?_⟩
  · rw [List.length_eraseIdx_of_lt h]
    omega
  · intro k hk
    rw [LL.get_eq_getElem?, LL.get_eq_getElem?]
    exact LL.getElem?_eraseIdx_of_lt l idx k hk
  · intro k hk
    rw [LL.get_eq_getElem?, LL.get_eq_getElem?]
    exact LL.getElem?_eraseIdx_of_ge l idx k hk

/-- C2 witness at `l = [10, 20, 30]`, `idx = 1`. -/
theorem remove_in_range_shifts_witness :
    (1 < ([10, 20, 30] : List Nat).length) ∧
    ((LL.remove [10, 20, 30] 1).2.1 = Except.ok () ∧
      (LL.remove [10, 20, 30] 1).1.length + 1 =
        ([10, 20, 30] : List Nat).length ∧
      (∀ k, k < 1 →
        LL.get (LL.remove [10, 20, 30] 1).1 k = LL.get [10, 20, 30] k) ∧
      (∀ k, 1 ≤ k →
        LL.get (LL.remove [10, 20, 30] 1).1 k = LL.get [10, 20, 30] (k + 1))) :=
  ⟨by decide, remove_in_range_shifts [10, 20, 30] 1 (by decide)⟩

/-- C3: `add_at(value, idx)` with `idx > count` fails, leaves the list
observably unchanged and allocates no node (the full result is
`(l, Err, 0 allocations)`); with `idx ≤ count` it succeeds, `value`
becomes the element at position `idx`, and every existing element at
`idx` and beyond is shifted one position later. -/
theorem add_at_success_and_failure {α : Type} (l : List α) (v : α)
    (idx : Nat) :
    (l.length < idx → LL.add_at l v idx = (l, Except.error (), 0)) ∧
    (idx ≤ l.length →
      (LL.add_at l v idx).2.1 = Except.ok () ∧
      LL.get (LL.add_at l v idx).1 idx = some v ∧
      (∀ k, k < idx → LL.get (LL.add_at l v idx).1 k = LL.get l k) ∧
      (∀ k, idx ≤ k → LL.get (LL.add_at l v idx).1 (k + 1) = LL.get l k)) := by
  refine ⟨fun h => LL.add_at_of_gt l v idx h, fun h => ?_⟩
  rw [LL.add_at_of_le l v idx h]
  dsimp only
  refine ⟨rfl, ?_, ?_, ?_⟩
  · rw [LL.get_eq_getElem?]
    exact LL.getElem?_insertIdx_self l v idx h
  · intro k hk
    rw [LL.get_eq_getElem?, LL.get_eq_getElem?]
    exact LL.getElem?_insertIdx_of_lt l v idx k hk
  · intro k hk
    rw [LL.get_eq_getElem?, LL.get_eq_getElem?]
    exact LL.getElem?_insertIdx_shift l v idx k h hk

/-- C3 witness: failure at `idx = 3 > 2 = count` on `[1, 2]`, success at
`idx = 1 ≤ 2`. -/
theorem add_at_success_and_failure_witness :
    LL.add_at [1, 2] 5 3 = ([1, 2], Except.error (), 0) ∧
    LL.get (LL.add_at [1, 2] 5 1).1 1 = some 5 :=
  ⟨(add_at_success_and_failure [1, 2] 5 3).1 (by decide),
    ((add_at_success_and_failure [1, 2] 5 1).2 (by decide)).2.1⟩

/-- C4: for every `idx ≥ count` — including every `remove` on the empty
list — `remove(idx)` fails cleanly: it returns `Err`, frees no node (so it
never removes any node, let alone a wrong one), and the list state is
exactly the input state, with no partial mutation even when the failure is
only detected mid-traversal. -/
theorem remove_out_of_range_fails_cleanly {α : Type} (l : List α)
    (idx : Nat) (h : l.length ≤ idx) :
    LL.remove l idx = (l, Except.error (), 0) :=
  LL.remove_of_ge l idx h

/-- C4 witness: the empty list at `idx = 0`, and `[7]` at `idx = 2` (a
failure detected mid-traversal). -/
theorem remove_out_of_range_fails_cleanly_witness :
    (([] : List Nat).length ≤ 0) ∧ (([7] : List Nat).length ≤ 2) ∧
    LL.remove ([] : List Nat) 0 = ([], Except.error (), 0) ∧
    LL.remove [7] 2 = ([7], Except.error (), 0) :=
  ⟨by decide, by decide,
    remove_out_of_range_fails_cleanly ([] : List Nat) 0 (by decide),
    remove_out_of_range_fails_cleanly [7] 2 (by decide)⟩

/-- C5: the destructor is NOT an iterative, O(1)-stack release loop: each
node's `Drop` handler recursively runs the next node's handler before its
own free completes, so the nesting depth of `drop` calls equals the number
of reachable nodes — 100,000 nested frames for the stress scenario — and
the node frees complete tail-first rather than head-to-tail.  (Each node
is still released exactly once: the completion order is a permutation of
the chain.) -/
theorem drop_chain_recursion_depth_linear {α : Type} (l : List α) :
    (LL.drop_chain l).2 = l.length ∧
    (LL.drop_chain l).1 = l.reverse ∧
    (LL.drop_chain (List.replicate 100000 (0 : Nat))).2 = 100000 := by
  refine ⟨?_, ?_, ?_⟩
  · rw [LL.drop_chain_eq]
  · rw [LL.drop_chain_eq]
  · rw [LL.drop_chain_eq]
    dsimp only
    rw [List.length_replicate]

/-- C6: the no-panic claim fails on the cited draft destructor, whose body
is `todo!()` — a panic for every list state (embedded as a constant
`Except.error`).  The final version's fallible operations, by contrast, do
fail cleanly: whenever `remove` or `add_at` reports an error, the state
comes back unchanged with no node freed or allocated. -/
theorem failure_is_clean_but_draft_drop_panics {α : Type} (l : List α)
    (v : α) (idx : Nat) :
    ((LL.remove l idx).2.1 = Except.error () →
      LL.remove l idx = (l, Except.error (), 0)) ∧
    ((LL.add_at l v idx).2.1 = Except.error () →
      LL.add_at l v idx = (l, Except.error (), 0)) ∧
    Draft.drop_run l = Except.error () := by
  refine ⟨?_, ?_, rfl⟩
  · intro h
    by_cases hlt : idx < l.length
    · rw [LL.remove_of_lt l idx hlt] at h
      simp at h
    · exact LL.remove_of_ge l idx (Nat.le_of_not_lt hlt)
  · intro h
    by_cases hle : idx ≤ l.length
    · rw [LL.add_at_of_le l v idx hle] at h
      simp at h
    · exact LL.add_at_of_gt l v idx (Nat.lt_of_not_le hle)

/-- C6 witness at `l = [5]`, `v = 7`, `idx = 3`. -/
theorem failure_is_clean_but_draft_drop_panics_witness :
    LL.remove [5] 3 = ([5], Except.error (), 0) ∧
    LL.add_at [5] 7 3 = ([5], Except.error (), 0) ∧
    Draft.drop_run ([5] : List Nat) = Except.error () :=
  ⟨(failure_is_clean_but_draft_drop_panics [5] 7 3).1 rfl,
    (failure_is_clean_but_draft_drop_panics [5] 7 3).2.1 rfl,
    (failure_is_clean_but_draft_drop_panics [5] 7 3).2.2⟩

/-- C7: pushing `v0 .. v(n-1)` in order via `push_back` onto a new empty
list yields a list whose `get(i)` is `vi` for every `i < n` (it agrees
with `getElem?` of the pushed sequence at every index), and whose
`get(n)` is absent. -/
theorem push_back_sequence_get {α : Type} (vs : List α) (i : Nat) :
    LL.get (LL.push_back_all [] vs) i = vs[i]? ∧
    LL.get (LL.push_back_all [] vs) vs.length = none := by
  have hall : LL.push_back_all ([] : List α) vs = vs := by
    simpa using LL.push_back_all_eq [] vs
  refine ⟨?_, ?_⟩
  · rw [hall, LL.get_eq_getElem?]
  · rw [hall, LL.get_eq_getElem?, List.getElem?_eq_none (Nat.le_refl _)]

/-- C8: whenever `add_at(x, i)` succeeds, following it immediately with
`remove(i)` succeeds and restores a list observably identical to the one
before both calls: the state is equal, hence `get(k)` agrees for every
`k`. -/
theorem add_at_remove_round_trip {α : Type} (l : List α) (x : α) (i : Nat)
    (h : (LL.add_at l x i).2.1 = Except.ok ()) :
    (LL.remove (LL.add_at l x i).1 i).2.1 = Except.ok () ∧
    (LL.remove (LL.add_at l x i).1 i).1 = l ∧
    (∀ k, LL.get (LL.remove (LL.add_at l x i).1 i).1 k = LL.get l k) := by
  have hle : i ≤ l.length := by
    by_contra hc
    rw [LL.add_at_of_gt l x i (Nat.lt_of_not_le hc)] at h
    simp at h
  rw [LL.add_at_of_le l x i hle]
  dsimp only
  have hlt : i < (l.insertIdx i x).length := by
    rw [List.length_insertIdx i l hle]
    omega
  rw [LL.remove_of_lt _ i hlt]
  dsimp only
  refine ⟨rfl, List.eraseIdx_insertIdx i l, ?_⟩
  intro k
  rw [List.eraseIdx_insertIdx i l]

/-- C8 witness at `l = [1, 2]`, `x = 9`, `i = 1`. -/
theorem add_at_remove_round_trip_witness :
    (LL.add_at [1, 2] 9 1).2.1 = Except.ok () ∧
    (LL.remove (LL.add_at [1, 2] 9 1).1 1).1 = [1, 2] :=
  ⟨rfl, (add_at_remove_round_trip [1, 2] 9 1 rfl).2.1⟩

/-- C9: `add_at(x, count)` always succeeds and produces exactly the list
`push_back(x)` produces, while `add_at(x, count + 1)` always fails and
leaves the list unchanged (with nothing allocated). -/
theorem add_at_count_eq_push_back {α : Type} (l : List α) (x : α) :
    (LL.add_at l x l.length).1 = LL.push_back l x ∧
    (LL.add_at l x l.length).2.1 = Except.ok () ∧
    LL.add_at l x (l.length + 1) = (l, Except.error (), 0) := by
  refine ⟨?_, ?_, ?_⟩
  · rw [LL.add_at_of_le l x l.length (Nat.le_refl _), LL.push_back_eq]
    dsimp only
    exact List.insertIdx_length_self l x
  · rw [LL.add_at_of_le l x l.length (Nat.le_refl _)]
  · exact LL.add_at_of_gt l x (l.length + 1) (Nat.lt_succ_self _)

/-- C10: the draft's `push_at(value, idx)` returns `Ok(())` for every
list state, value and index, and never modifies the list: the state comes
back untouched, so `get(k)` is unchanged for every `k`. -/
theorem push_at_always_ok_no_op {α : Type} (l : List α) (v : α)
    (idx k : Nat) :
    Draft.push_at l v idx = (l, Except.ok ()) ∧
    Draft.get (Draft.push_at l v idx).1 k = Draft.get l k :=
  ⟨rfl, rfl⟩
